import Mathlib

/-!
Verification of the MicroAI DAO LLC membership program (src/lib.rs).

The embedding models, over lists of bytes (`Fin 256`):
  * borsh serialization of the two persisted records (`Membership`, `Member`)
    and of the instruction enum (`MembershipInstruction`), including the
    exact-consumption semantics of `try_from_slice`, the one-byte boolean
    with rejection of values other than 0 and 1, u32 length-prefixed
    UTF-8 strings, and little-endian fixed-width integers;
  * account handles (`AccountInfo`) carrying a public-key identity, a
    signer flag, an owner identity (never read by the program) and a
    fixed-capacity data buffer;
  * buffer writes through `serialize(&mut *data.borrow_mut())`, which fill
    the buffer prefix and fail with an io error once capacity runs out,
    leaving the prefix written (`storeInto`);
  * the three instruction handlers and the dispatcher
    `process_instruction`, returning the error outcome together with the
    post-state of the account list.

Machine integers are modelled as `Nat`; the wrapping of `u64` (release
profile, the Solana default) surfaces where values are serialized into a
fixed number of bytes, which is the only observable place.
-/

set_option maxRecDepth 4096

namespace MicroDao

/-- Bytes of the wire format and of account buffers. -/
abbrev Byte := Fin 256

/-- Little-endian value of a byte list (each byte is a base-256 digit). -/
def leToNat : List Byte → Nat
  | [] => 0
  | b :: r => b.val + 256 * leToNat r

/-- Little-endian digits of a natural number, `k` bytes wide (truncating,
as Rust `to_le_bytes` does on the fixed-width value). -/
def natToLe : Nat → Nat → List Byte
  | 0, _ => []
  | k + 1, n => ⟨n % 256, Nat.mod_lt _ (by norm_num)⟩ :: natToLe k (n / 256)

theorem natToLe_length (k n : Nat) : (natToLe k n).length = k := by
  induction k generalizing n with
  | zero => rfl
  | succ k ih => simp [natToLe, ih]

theorem leToNat_natToLe (k n : Nat) : leToNat (natToLe k n) = n % 256 ^ k := by
  induction k generalizing n with
  | zero => simp [natToLe, leToNat, Nat.mod_one]
  | succ k ih =>
      have hpow : (256 : Nat) ^ (k + 1) = 256 * 256 ^ k := by
        rw [pow_succ]; ring
      rw [natToLe, leToNat, ih, hpow, Nat.mod_mul]

theorem natToLe_leToNat (l : List Byte) : natToLe l.length (leToNat l) = l := by
  induction l with
  | nil => rfl
  | cons b r ih =>
      have hb : b.val < 256 := b.isLt
      have hmod : (b.val + 256 * leToNat r) % 256 = b.val := by
        rw [Nat.add_mul_mod_self_left, Nat.mod_eq_of_lt hb]
      have hdiv : (b.val + 256 * leToNat r) / 256 = leToNat r := by
        rw [Nat.add_mul_div_left _ _ (by norm_num : (0:Nat) < 256),
          Nat.div_eq_of_lt hb, Nat.zero_add]
      simp only [List.length_cons, natToLe, leToNat, hmod, hdiv, ih]

theorem natToLe_mod (k n : Nat) : natToLe k (n % 256 ^ k) = natToLe k n := by
  induction k generalizing n with
  | zero => rfl
  | succ k ih =>
      have hpow : (256 : Nat) ^ (k + 1) = 256 * 256 ^ k := by
        rw [pow_succ]; ring
      have h1 : n % 256 ^ (k + 1) % 256 = n % 256 := by
        rw [hpow, Nat.mod_mod_of_dvd _ ⟨256 ^ k, rfl⟩]
      have h2 : n % 256 ^ (k + 1) / 256 = n / 256 % 256 ^ k := by
        rw [hpow, Nat.mod_mul_right_div_self]
      simp only [natToLe, h1, h2, ih]

theorem leToNat_lt (l : List Byte) : leToNat l < 256 ^ l.length := by
  induction l with
  | nil => simp [leToNat]
  | cons b r ih =>
      have hb : b.val < 256 := b.isLt
      have : (256:Nat) ^ (r.length + 1) = 256 * 256 ^ r.length := by
        rw [pow_succ]; ring
      simp only [leToNat, List.length_cons, this]
      omega

theorem leToNat_append (l r : List Byte) :
    leToNat (l ++ r) = leToNat l + 256 ^ l.length * leToNat r := by
  induction l with
  | nil => simp [leToNat]
  | cons b t ih =>
      simp only [List.cons_append, leToNat, List.append_eq, ih, List.length_cons, pow_succ]
      ring

/-- Continuation byte of a UTF-8 sequence (0x80 to 0xBF). -/
def utf8Cont (b : Byte) : Bool := 128 ≤ b.val ∧ b.val ≤ 191

/-- Validity of a byte list as UTF-8, as checked by Rust
`String::from_utf8` during borsh deserialization of a `String`. -/
def utf8Valid : List Byte → Bool
  | [] => true
  | b :: r =>
    if b.val ≤ 127 then utf8Valid r
    else if 194 ≤ b.val ∧ b.val ≤ 223 then
      match r with
      | c :: r2 => utf8Cont c && utf8Valid r2
      | [] => false
    else if b.val = 224 then
      match r with
      | c :: d :: r2 => (160 ≤ c.val ∧ c.val ≤ 191 : Bool) && utf8Cont d && utf8Valid r2
      | _ => false
    else if (225 ≤ b.val ∧ b.val ≤ 236) ∨ b.val = 238 ∨ b.val = 239 then
      match r with
      | c :: d :: r2 => utf8Cont c && utf8Cont d && utf8Valid r2
      | _ => false
    else if b.val = 237 then
      match r with
      | c :: d :: r2 => (128 ≤ c.val ∧ c.val ≤ 159 : Bool) && utf8Cont d && utf8Valid r2
      | _ => false
    else if b.val = 240 then
      match r with
      | c :: d :: e :: r2 =>
          (144 ≤ c.val ∧ c.val ≤ 191 : Bool) && utf8Cont d && utf8Cont e && utf8Valid r2
      | _ => false
    else if 241 ≤ b.val ∧ b.val ≤ 243 then
      match r with
      | c :: d :: e :: r2 => utf8Cont c && utf8Cont d && utf8Cont e && utf8Valid r2
      | _ => false
    else if b.val = 244 then
      match r with
      | c :: d :: e :: r2 =>
          (128 ≤ c.val ∧ c.val ≤ 143 : Bool) && utf8Cont d && utf8Cont e && utf8Valid r2
      | _ => false
    else false

/-- Reads `k` raw bytes from the front of the input, failing if fewer
remain (borsh fixed-width and array reads). -/
def readBytes (k : Nat) (bs : List Byte) : Option (List Byte × List Byte) :=
  if k ≤ bs.length then some (bs.take k, bs.drop k) else none

/-- Reads a little-endian u64 (8 bytes). -/
def readU64 (bs : List Byte) : Option (Nat × List Byte) :=
  (readBytes 8 bs).map (fun p => (leToNat p.1, p.2))

/-- Reads a little-endian u32 (4 bytes), used as a length prefix. -/
def readU32 (bs : List Byte) : Option (Nat × List Byte) :=
  (readBytes 4 bs).map (fun p => (leToNat p.1, p.2))

/-- Reads a borsh boolean: one byte, 0 or 1; any other value is a
deserialization error. -/
def readBool (bs : List Byte) : Option (Bool × List Byte) :=
  match bs with
  | [] => none
  | b :: r =>
    if b.val = 0 then some (false, r)
    else if b.val = 1 then some (true, r)
    else none

/-- Reads a borsh `String`: u32 length prefix, then that many bytes,
which must form valid UTF-8. The string is kept as its byte list. -/
def readString (bs : List Byte) : Option (List Byte × List Byte) :=
  match readU32 bs with
  | none => none
  | some (len, r) =>
    if len ≤ r.length then
      if utf8Valid (r.take len) then some (r.take len, r.drop len) else none
    else none

/-- Membership state persisted in account 0 (src/lib.rs, struct Membership). -/
structure Membership where
  member_count : Nat
  authority : List Byte
  deriving DecidableEq

/-- Member state persisted in a member account (src/lib.rs, struct Member).
The name is kept as its UTF-8 byte list. -/
structure Member where
  id : Nat
  name : List Byte
  is_ai : Bool
  voting_power : Nat
  pubkey : List Byte
  deriving DecidableEq

/-- Program instructions (src/lib.rs, enum MembershipInstruction). -/
inductive MembershipInstruction where
  | Initialize : MembershipInstruction
  | RegisterMember : List Byte → Bool → Nat → MembershipInstruction
  | UpdateVotingPower : Nat → MembershipInstruction
  deriving DecidableEq

/-- Errors surfaced to the caller. `Custom n` carries the numeric value of
a `MembershipError` (NotAuthorized = 3); `BorshIoError` stands for any
borsh serialization or deserialization io error (its message string is
elided); `NotEnoughAccountKeys` is produced by `next_account_info`. -/
inductive ProgramError where
  | Custom : Nat → ProgramError
  | BorshIoError : ProgramError
  | NotEnoughAccountKeys : ProgramError
  deriving DecidableEq

/-- Account handle as the program sees it: public-key identity, signer
flag, owner identity (never read by this program) and the data buffer. -/
structure AccountInfo where
  key : List Byte
  is_signer : Bool
  owner : List Byte
  data : List Byte
  deriving DecidableEq

/-- Borsh encoding of a Membership record: 8-byte little-endian count,
then the 32 authority bytes. -/
def encodeMembership (m : Membership) : List Byte :=
  natToLe 8 m.member_count ++ m.authority

/-- Borsh encoding of a Member record: 8-byte id, u32 length-prefixed
name bytes, 1-byte boolean, 8-byte voting power, 32 pubkey bytes. -/
def encodeMember (m : Member) : List Byte :=
  natToLe 8 m.id ++ natToLe 4 m.name.length ++ m.name ++
    [if m.is_ai then (1 : Byte) else 0] ++ natToLe 8 m.voting_power ++ m.pubkey

/-- Borsh encoding of an instruction: 1-byte discriminant then the
fields of the variant. -/
def encodeInstr : MembershipInstruction → List Byte
  | .Initialize => [0]
  | .RegisterMember name ai vp =>
      1 :: (natToLe 4 name.length ++ name ++ [if ai then (1 : Byte) else 0] ++ natToLe 8 vp)
  | .UpdateVotingPower vp => 2 :: natToLe 8 vp

/-- Borsh deserializer for Membership, returning the remaining bytes. -/
def deserMembership (bs : List Byte) : Option (Membership × List Byte) :=
  match readU64 bs with
  | none => none
  | some (c, r1) =>
    match readBytes 32 r1 with
    | none => none
    | some (auth, r2) => some (⟨c, auth⟩, r2)

/-- Borsh deserializer for Member, returning the remaining bytes. -/
def deserMember (bs : List Byte) : Option (Member × List Byte) :=
  match readU64 bs with
  | none => none
  | some (i, r1) =>
    match readString r1 with
    | none => none
    | some (name, r2) =>
      match readBool r2 with
      | none => none
      | some (ai, r3) =>
        match readU64 r3 with
        | none => none
        | some (vp, r4) =>
          match readBytes 32 r4 with
          | none => none
          | some (pk, r5) => some (⟨i, name, ai, vp, pk⟩, r5)

/-- Borsh deserializer for an instruction, returning the remaining bytes. -/
def deserInstr (bs : List Byte) : Option (MembershipInstruction × List Byte) :=
  match bs with
  | [] => none
  | b :: r =>
    if b.val = 0 then some (.Initialize, r)
    else if b.val = 1 then
      match readString r with
      | none => none
      | some (name, r1) =>
        match readBool r1 with
        | none => none
        | some (ai, r2) =>
          match readU64 r2 with
          | none => none
          | some (vp, r3) => some (.RegisterMember name ai vp, r3)
    else if b.val = 2 then
      match readU64 r with
      | none => none
      | some (vp, r1) => some (.UpdateVotingPower vp, r1)
    else none

/-- borsh `try_from_slice`: deserializes and requires that the whole
input was consumed, else it is a deserialization error. -/
def tfsMembership (bs : List Byte) : Option Membership :=
  match deserMembership bs with
  | some (m, []) => some m
  | _ => none

/-- borsh `try_from_slice` for Member. -/
def tfsMember (bs : List Byte) : Option Member :=
  match deserMember bs with
  | some (m, []) => some m
  | _ => none

/-- borsh `try_from_slice` for an instruction. -/
def tfsInstr (bs : List Byte) : Option MembershipInstruction :=
  match deserInstr bs with
  | some (i, []) => some i
  | _ => none

/-- Write of an encoded record into a fixed-capacity buffer through
`serialize(&mut *data.borrow_mut())`. The io `Write` impl for `&mut [u8]`
fills the prefix; if the encoding exceeds capacity, `write_all` fails
after filling the whole buffer with the prefix of the encoding, and the
error surfaces as a borsh io error. -/
def storeInto (buf enc : List Byte) : Option ProgramError × List Byte :=
  if enc.length ≤ buf.length then (none, enc ++ buf.drop enc.length)
  else (some .BorshIoError, enc.take buf.length)

/-- Outcome of a handler: the error (none = Ok) and the post-state of
the account list. -/
abbrev ProcOut := Option ProgramError × List AccountInfo

/-- processInitialize (src/lib.rs lines 124-146): requires two accounts,
checks that account 1 signed, then serializes a fresh Membership record
with count 0 and authority = account 1 key into account 0. -/
def processInitialize (_programId : List Byte) (accounts : List AccountInfo) : ProcOut :=
  match accounts with
  | a0 :: a1 :: rest =>
    if a1.is_signer = false then (some (.Custom 3), a0 :: a1 :: rest)
    else
      match storeInto a0.data (encodeMembership ⟨0, a1.key⟩) with
      | (e, d0) => (e, { a0 with data := d0 } :: a1 :: rest)
  | _ => (some .NotEnoughAccountKeys, accounts)

/-- process_register_member (src/lib.rs lines 149-193): requires three
accounts, loads the Membership from account 0, checks the authority
(signer and key match), builds the Member with id = current count,
increments the count, then serializes the Member into account 1 and the
Membership into account 0 in that order. -/
def process_register_member (_programId : List Byte) (accounts : List AccountInfo)
    (name : List Byte) (is_ai : Bool) (voting_power : Nat) : ProcOut :=
  match accounts with
  | a0 :: a1 :: a2 :: rest =>
    match tfsMembership a0.data with
    | none => (some .BorshIoError, a0 :: a1 :: a2 :: rest)
    | some membership =>
      if a2.is_signer = false ∨ a2.key ≠ membership.authority then
        (some (.Custom 3), a0 :: a1 :: a2 :: rest)
      else
        let member : Member :=
          ⟨membership.member_count, name, is_ai, voting_power, a1.key⟩
        let membership2 : Membership :=
          { membership with member_count := membership.member_count + 1 }
        match storeInto a1.data (encodeMember member) with
        | (some e, d1) => (some e, a0 :: { a1 with data := d1 } :: a2 :: rest)
        | (none, d1) =>
          match storeInto a0.data (encodeMembership membership2) with
          | (e, d0) =>
            (e, { a0 with data := d0 } :: { a1 with data := d1 } :: a2 :: rest)
  | _ => (some .NotEnoughAccountKeys, accounts)

/-- process_update_voting_power (src/lib.rs lines 196-223): requires
three accounts, loads the Membership from account 0, checks the
authority, loads the Member from account 1, overwrites its voting power
and serializes it back into account 1. -/
def process_update_voting_power (_programId : List Byte) (accounts : List AccountInfo)
    (voting_power : Nat) : ProcOut :=
  match accounts with
  | a0 :: a1 :: a2 :: rest =>
    match tfsMembership a0.data with
    | none => (some .BorshIoError, a0 :: a1 :: a2 :: rest)
    | some membership =>
      if a2.is_signer = false ∨ a2.key ≠ membership.authority then
        (some (.Custom 3), a0 :: a1 :: a2 :: rest)
      else
        match tfsMember a1.data with
        | none => (some .BorshIoError, a0 :: a1 :: a2 :: rest)
        | some member =>
          match storeInto a1.data (encodeMember { member with voting_power := voting_power }) with
          | (e, d1) => (e, a0 :: { a1 with data := d1 } :: a2 :: rest)
  | _ => (some .NotEnoughAccountKeys, accounts)

/-- process_instruction (src/lib.rs lines 103-121): decodes the
instruction bytes with `try_from_slice` and dispatches; a decode failure
aborts before any account is touched. -/
def process_instruction (programId : List Byte) (accounts : List AccountInfo)
    (instruction_data : List Byte) : ProcOut :=
  match tfsInstr instruction_data with
  | none => (some .BorshIoError, accounts)
  | some .Initialize => processInitialize programId accounts
  | some (.RegisterMember name is_ai voting_power) =>
      process_register_member programId accounts name is_ai voting_power
  | some (.UpdateVotingPower voting_power) =>
      process_update_voting_power programId accounts voting_power


theorem encodeMembership_length (m : Membership) :
    (encodeMembership m).length = 8 + m.authority.length := by
  simp [encodeMembership, natToLe_length]

theorem encodeMember_length (m : Member) :
    (encodeMember m).length = 21 + m.name.length + m.pubkey.length := by
  simp [encodeMember, natToLe_length]
  ring

theorem readBytes_exact (l r : List Byte) (k : Nat) (h : l.length = k) :
    readBytes k (l ++ r) = some (l, r) := by
  subst h
  simp [readBytes, List.take_left, List.drop_left]

theorem readBytes_mono (k : Nat) (bs d r e : List Byte)
    (h : readBytes k bs = some (d, r)) :
    readBytes k (bs ++ e) = some (d, r ++ e) := by
  simp only [readBytes] at h
  split at h
  · rename_i hk
    injection h with h
    injection h with h1 h2
    subst h1; subst h2
    simp only [readBytes, List.length_append]
    rw [if_pos (by omega)]
    rw [List.take_append_of_le_length hk, List.drop_append_of_le_length hk]
  · exact absurd h (by simp)

theorem readU64_exact (l r : List Byte) (h : l.length = 8) :
    readU64 (l ++ r) = some (leToNat l, r) := by
  simp [readU64, readBytes_exact l r 8 h]

theorem readU64_natToLe (n : Nat) (r : List Byte) :
    readU64 (natToLe 8 n ++ r) = some (n % 2 ^ 64, r) := by
  rw [readU64, readBytes_exact _ r 8 (natToLe_length 8 n)]
  simp [leToNat_natToLe]

theorem readU32_exact (l r : List Byte) (h : l.length = 4) :
    readU32 (l ++ r) = some (leToNat l, r) := by
  simp [readU32, readBytes_exact l r 4 h]

theorem readU32_natToLe (n : Nat) (r : List Byte) :
    readU32 (natToLe 4 n ++ r) = some (n % 2 ^ 32, r) := by
  rw [readU32, readBytes_exact _ r 4 (natToLe_length 4 n)]
  simp [leToNat_natToLe]

theorem readBool_exact (b : Bool) (r : List Byte) :
    readBool ((if b then (1 : Byte) else 0) :: r) = some (b, r) := by
  cases b <;> simp [readBool]

theorem readString_exact (name r : List Byte) (hlen : name.length < 2 ^ 32)
    (hval : utf8Valid name = true) :
    readString (natToLe 4 name.length ++ (name ++ r)) = some (name, r) := by
  rw [readString, readU32_natToLe, Nat.mod_eq_of_lt hlen]
  simp [List.take_left, List.drop_left, hval]

theorem readU64_mono (bs e : List Byte) (n : Nat) (r : List Byte)
    (h : readU64 bs = some (n, r)) : readU64 (bs ++ e) = some (n, r ++ e) := by
  simp only [readU64] at h ⊢
  cases hrb : readBytes 8 bs with
  | none => rw [hrb] at h; simp at h
  | some p =>
      obtain ⟨d, r0⟩ := p
      rw [hrb] at h
      simp only [Option.map_some'] at h
      injection h with h
      injection h with h1 h2
      subst h1; subst h2
      rw [readBytes_mono 8 bs d r0 e hrb]
      rfl

theorem readU32_mono (bs e : List Byte) (n : Nat) (r : List Byte)
    (h : readU32 bs = some (n, r)) : readU32 (bs ++ e) = some (n, r ++ e) := by
  simp only [readU32] at h ⊢
  cases hrb : readBytes 4 bs with
  | none => rw [hrb] at h; simp at h
  | some p =>
      obtain ⟨d, r0⟩ := p
      rw [hrb] at h
      simp only [Option.map_some'] at h
      injection h with h
      injection h with h1 h2
      subst h1; subst h2
      rw [readBytes_mono 4 bs d r0 e hrb]
      rfl

theorem readBool_mono (bs e : List Byte) (b : Bool) (r : List Byte)
    (h : readBool bs = some (b, r)) : readBool (bs ++ e) = some (b, r ++ e) := by
  cases bs with
  | nil => exact absurd h (by simp [readBool])
  | cons x t =>
      simp only [readBool, List.cons_append] at h ⊢
      by_cases h0 : x.val = 0
      · rw [if_pos h0] at h
        injection h with h
        injection h with hb hr
        subst hb; subst hr
        rw [if_pos h0]
      · by_cases h1 : x.val = 1
        · rw [if_neg h0, if_pos h1] at h
          injection h with h
          injection h with hb hr
          subst hb; subst hr
          rw [if_neg h0, if_pos h1]
        · rw [if_neg h0, if_neg h1] at h
          exact absurd h (by simp)

theorem readString_mono (bs e : List Byte) (s : List Byte) (r : List Byte)
    (h : readString bs = some (s, r)) : readString (bs ++ e) = some (s, r ++ e) := by
  simp only [readString] at h
  cases hu : readU32 bs with
  | none => rw [hu] at h; exact absurd h (by simp)
  | some p =>
      obtain ⟨len, r1⟩ := p
      rw [hu] at h
      simp only at h
      split at h
      · rename_i hle
        split at h
        · rename_i hutf
          injection h with h
          injection h with h1 h2
          subst h1; subst h2
          rw [readString, readU32_mono bs e len r1 hu]
          simp only
          rw [if_pos (by simp [List.length_append]; omega)]
          rw [List.take_append_of_le_length hle, List.drop_append_of_le_length hle]
          simp [hutf]
        · exact absurd h (by simp)
      · exact absurd h (by simp)


theorem readBytes_inv (k : Nat) (bs d r : List Byte)
    (h : readBytes k bs = some (d, r)) : bs = d ++ r ∧ d.length = k := by
  simp only [readBytes] at h
  split at h
  · rename_i hk
    injection h with h
    injection h with h1 h2
    subst h1; subst h2
    exact ⟨(List.take_append_drop k bs).symm, by simp [List.length_take]; omega⟩
  · exact absurd h (by simp)

theorem readU64_inv (bs r : List Byte) (n : Nat)
    (h : readU64 bs = some (n, r)) :
    bs = natToLe 8 n ++ r ∧ n < 2 ^ 64 := by
  simp only [readU64] at h
  cases hrb : readBytes 8 bs with
  | none => rw [hrb] at h; simp at h
  | some p =>
      obtain ⟨d, r0⟩ := p
      rw [hrb] at h
      simp only [Option.map_some'] at h
      injection h with h
      injection h with h1 h2
      subst h1; subst h2
      obtain ⟨hbs, hlen⟩ := readBytes_inv 8 bs d r0 hrb
      have hd : natToLe 8 (leToNat d) = d := by rw [← hlen, natToLe_leToNat]
      have hlt : leToNat d < 2 ^ 64 := by
        have := leToNat_lt d
        rw [hlen] at this
        exact lt_of_lt_of_le this (by norm_num)
      exact ⟨by rw [hd, ← hbs], hlt⟩

theorem readU32_inv (bs r : List Byte) (n : Nat)
    (h : readU32 bs = some (n, r)) :
    bs = natToLe 4 n ++ r ∧ n < 2 ^ 32 := by
  simp only [readU32] at h
  cases hrb : readBytes 4 bs with
  | none => rw [hrb] at h; simp at h
  | some p =>
      obtain ⟨d, r0⟩ := p
      rw [hrb] at h
      simp only [Option.map_some'] at h
      injection h with h
      injection h with h1 h2
      subst h1; subst h2
      obtain ⟨hbs, hlen⟩ := readBytes_inv 4 bs d r0 hrb
      have hd : natToLe 4 (leToNat d) = d := by rw [← hlen, natToLe_leToNat]
      have hlt : leToNat d < 2 ^ 32 := by
        have := leToNat_lt d
        rw [hlen] at this
        exact lt_of_lt_of_le this (by norm_num)
      exact ⟨by rw [hd, ← hbs], hlt⟩

theorem readBool_inv (bs r : List Byte) (b : Bool)
    (h : readBool bs = some (b, r)) :
    bs = (if b then (1 : Byte) else 0) :: r := by
  cases bs with
  | nil => exact absurd h (by simp [readBool])
  | cons x t =>
      simp only [readBool] at h
      by_cases h0 : x.val = 0
      · rw [if_pos h0] at h
        injection h with h
        injection h with hb hr
        subst hb; subst hr
        have : x = 0 := Fin.ext h0
        rw [this]
        rfl
      · by_cases h1 : x.val = 1
        · rw [if_neg h0, if_pos h1] at h
          injection h with h
          injection h with hb hr
          subst hb; subst hr
          have : x = 1 := Fin.ext h1
          rw [this]
          rfl
        · rw [if_neg h0, if_neg h1] at h
          exact absurd h (by simp)

theorem readString_inv (bs s r : List Byte)
    (h : readString bs = some (s, r)) :
    bs = natToLe 4 s.length ++ (s ++ r) ∧ s.length < 2 ^ 32 ∧ utf8Valid s = true := by
  simp only [readString] at h
  cases hu : readU32 bs with
  | none => rw [hu] at h; exact absurd h (by simp)
  | some p =>
      obtain ⟨len, r1⟩ := p
      rw [hu] at h
      simp only at h
      split at h
      · rename_i hle
        split at h
        · rename_i hutf
          injection h with h
          injection h with h1 h2
          subst h1; subst h2
          obtain ⟨hbs, hlt⟩ := readU32_inv bs r1 len hu
          have hslen : (r1.take len).length = len := by
            simp [List.length_take]
            omega
          have hr1 : r1 = r1.take len ++ r1.drop len := (List.take_append_drop len r1).symm
          refine ⟨?_, by rw [hslen]; exact hlt, hutf⟩
          rw [hslen, hbs, ← hr1]
        · exact absurd h (by simp)
      · exact absurd h (by simp)

theorem deserMembership_inv (bs r : List Byte) (m : Membership)
    (h : deserMembership bs = some (m, r)) :
    bs = encodeMembership m ++ r ∧ m.member_count < 2 ^ 64 ∧ m.authority.length = 32 := by
  simp only [deserMembership] at h
  cases hu : readU64 bs with
  | none => rw [hu] at h; exact absurd h (by simp)
  | some p =>
      obtain ⟨c, r1⟩ := p
      rw [hu] at h
      simp only at h
      cases hb : readBytes 32 r1 with
      | none => rw [hb] at h; exact absurd h (by simp)
      | some q =>
          obtain ⟨auth, r2⟩ := q
          rw [hb] at h
          simp only at h
          injection h with h
          injection h with h1 h2
          subst h1; subst h2
          obtain ⟨hbs, hclt⟩ := readU64_inv bs r1 c hu
          obtain ⟨hr1, halen⟩ := readBytes_inv 32 r1 auth r2 hb
          refine ⟨?_, hclt, halen⟩
          rw [encodeMembership]
          simp only
          rw [hbs, hr1, List.append_assoc]

theorem tfsMembership_inv (bs : List Byte) (m : Membership)
    (h : tfsMembership bs = some m) :
    bs = encodeMembership m ∧ m.member_count < 2 ^ 64 ∧ m.authority.length = 32 ∧
      bs.length = 40 := by
  simp only [tfsMembership] at h
  cases hd : deserMembership bs with
  | none => rw [hd] at h; exact absurd h (by simp)
  | some p =>
      obtain ⟨m0, r⟩ := p
      rw [hd] at h
      cases r with
      | cons x t => simp at h
      | nil =>
          simp only at h
          injection h with h1
          subst h1
          obtain ⟨hbs, hc, ha⟩ := deserMembership_inv bs [] m0 hd
          rw [List.append_nil] at hbs
          refine ⟨hbs, hc, ha, ?_⟩
          rw [hbs, encodeMembership_length, ha]

theorem deserMember_inv (bs r : List Byte) (m : Member)
    (h : deserMember bs = some (m, r)) :
    bs = encodeMember m ++ r ∧ m.id < 2 ^ 64 ∧ m.name.length < 2 ^ 32 ∧
      utf8Valid m.name = true ∧ m.voting_power < 2 ^ 64 ∧ m.pubkey.length = 32 := by
  simp only [deserMember] at h
  cases h1 : readU64 bs with
  | none => rw [h1] at h; exact absurd h (by simp)
  | some p1 =>
      obtain ⟨i, r1⟩ := p1
      rw [h1] at h
      simp only at h
      cases h2 : readString r1 with
      | none => rw [h2] at h; exact absurd h (by simp)
      | some p2 =>
          obtain ⟨name, r2⟩ := p2
          rw [h2] at h
          simp only at h
          cases h3 : readBool r2 with
          | none => rw [h3] at h; exact absurd h (by simp)
          | some p3 =>
              obtain ⟨ai, r3⟩ := p3
              rw [h3] at h
              simp only at h
              cases h4 : readU64 r3 with
              | none => rw [h4] at h; exact absurd h (by simp)
              | some p4 =>
                  obtain ⟨vp, r4⟩ := p4
                  rw [h4] at h
                  simp only at h
                  cases h5 : readBytes 32 r4 with
                  | none => rw [h5] at h; exact absurd h (by simp)
                  | some p5 =>
                      obtain ⟨pk, r5⟩ := p5
                      rw [h5] at h
                      simp only at h
                      injection h with h
                      injection h with ha hb
                      subst ha; subst hb
                      obtain ⟨e1, b1⟩ := readU64_inv bs r1 i h1
                      obtain ⟨e2, b2, b2v⟩ := readString_inv r1 name r2 h2
                      have e3 := readBool_inv r2 r3 ai h3
                      obtain ⟨e4, b4⟩ := readU64_inv r3 r4 vp h4
                      obtain ⟨e5, b5⟩ := readBytes_inv 32 r4 pk r5 h5
                      refine ⟨?_, b1, b2, b2v, b4, b5⟩
                      rw [e1, e2, e3, e4, e5, encodeMember]
                      simp [List.append_assoc]

theorem tfsMember_inv (bs : List Byte) (m : Member)
    (h : tfsMember bs = some m) :
    bs = encodeMember m ∧ m.id < 2 ^ 64 ∧ m.name.length < 2 ^ 32 ∧
      utf8Valid m.name = true ∧ m.voting_power < 2 ^ 64 ∧ m.pubkey.length = 32 := by
  simp only [tfsMember] at h
  cases hd : deserMember bs with
  | none => rw [hd] at h; exact absurd h (by simp)
  | some p =>
      obtain ⟨m0, r⟩ := p
      rw [hd] at h
      cases r with
      | cons x t => simp at h
      | nil =>
          simp only at h
          injection h with h1
          subst h1
          obtain ⟨hbs, rest⟩ := deserMember_inv bs [] m0 hd
          rw [List.append_nil] at hbs
          exact ⟨hbs, rest⟩


theorem deserMembership_encode (c : Nat) (auth r : List Byte)
    (hc : c < 2 ^ 64) (ha : auth.length = 32) :
    deserMembership (encodeMembership ⟨c, auth⟩ ++ r) = some (⟨c, auth⟩, r) := by
  have hshape : encodeMembership ⟨c, auth⟩ ++ r = natToLe 8 c ++ (auth ++ r) := by
    simp [encodeMembership, List.append_assoc]
  rw [hshape, deserMembership, readU64_natToLe, Nat.mod_eq_of_lt hc]
  simp [readBytes_exact auth r 32 ha]

theorem tfsMembership_encode (c : Nat) (auth : List Byte)
    (hc : c < 2 ^ 64) (ha : auth.length = 32) :
    tfsMembership (encodeMembership ⟨c, auth⟩) = some ⟨c, auth⟩ := by
  have h := deserMembership_encode c auth [] hc ha
  rw [List.append_nil] at h
  rw [tfsMembership, h]

theorem deserMember_encode (m : Member) (r : List Byte)
    (hid : m.id < 2 ^ 64) (hname : m.name.length < 2 ^ 32)
    (hval : utf8Valid m.name = true) (hvp : m.voting_power < 2 ^ 64)
    (hpk : m.pubkey.length = 32) :
    deserMember (encodeMember m ++ r) = some (m, r) := by
  have hshape : encodeMember m ++ r =
      natToLe 8 m.id ++ (natToLe 4 m.name.length ++ (m.name ++
        ((if m.is_ai then (1 : Byte) else 0) :: (natToLe 8 m.voting_power ++ (m.pubkey ++ r))))) := by
    simp [encodeMember, List.append_assoc]
  rw [hshape, deserMember, readU64_natToLe, Nat.mod_eq_of_lt hid]
  simp only
  rw [readString_exact _ _ hname hval]
  simp only
  rw [readBool_exact]
  simp only
  rw [readU64_natToLe, Nat.mod_eq_of_lt hvp]
  simp only
  rw [readBytes_exact m.pubkey r 32 hpk]

theorem tfsMember_encode (m : Member)
    (hid : m.id < 2 ^ 64) (hname : m.name.length < 2 ^ 32)
    (hval : utf8Valid m.name = true) (hvp : m.voting_power < 2 ^ 64)
    (hpk : m.pubkey.length = 32) :
    tfsMember (encodeMember m) = some m := by
  have h := deserMember_encode m [] hid hname hval hvp hpk
  rw [List.append_nil] at h
  rw [tfsMember, h]

theorem deserInstr_mono (bs e : List Byte) (i : MembershipInstruction) (r : List Byte)
    (h : deserInstr bs = some (i, r)) : deserInstr (bs ++ e) = some (i, r ++ e) := by
  cases bs with
  | nil => exact absurd h (by simp [deserInstr])
  | cons x t =>
      simp only [deserInstr, List.cons_append] at h ⊢
      by_cases h0 : x.val = 0
      · rw [if_pos h0] at h ⊢
        injection h with h
        injection h with ha hb
        subst ha; subst hb
        rfl
      · rw [if_neg h0] at h ⊢
        by_cases h1 : x.val = 1
        · rw [if_pos h1] at h ⊢
          cases hs : readString t with
          | none => rw [hs] at h; exact absurd h (by simp)
          | some p =>
              obtain ⟨name, r1⟩ := p
              rw [hs] at h
              simp only at h
              cases hb : readBool r1 with
              | none => rw [hb] at h; exact absurd h (by simp)
              | some q =>
                  obtain ⟨ai, r2⟩ := q
                  rw [hb] at h
                  simp only at h
                  cases hu : readU64 r2 with
                  | none => rw [hu] at h; exact absurd h (by simp)
                  | some w =>
                      obtain ⟨vp, r3⟩ := w
                      rw [hu] at h
                      simp only at h
                      injection h with h
                      injection h with ha hb2
                      subst ha; subst hb2
                      rw [readString_mono t e name r1 hs]
                      simp only
                      rw [readBool_mono r1 e ai r2 hb]
                      simp only
                      rw [readU64_mono r2 e vp r3 hu]
        · rw [if_neg h1] at h ⊢
          by_cases h2 : x.val = 2
          · rw [if_pos h2] at h ⊢
            cases hu : readU64 t with
            | none => rw [hu] at h; exact absurd h (by simp)
            | some w =>
                obtain ⟨vp, r1⟩ := w
                rw [hu] at h
                simp only at h
                injection h with h
                injection h with ha hb2
                subst ha; subst hb2
                rw [readU64_mono t e vp r1 hu]
          · rw [if_neg h2] at h
            exact absurd h (by simp)

theorem tfsInstr_trailing (bs e : List Byte) (i : MembershipInstruction)
    (h : tfsInstr bs = some i) (he : e ≠ []) : tfsInstr (bs ++ e) = none := by
  simp only [tfsInstr] at h ⊢
  cases hd : deserInstr bs with
  | none => rw [hd] at h; exact absurd h (by simp)
  | some p =>
      obtain ⟨i0, r⟩ := p
      rw [hd] at h
      cases r with
      | cons x t => simp at h
      | nil =>
          rw [deserInstr_mono bs e i0 [] hd]
          cases e with
          | nil => exact absurd rfl he
          | cons y u => simp

theorem tfsInstr_bad_discriminant (b : Byte) (r : List Byte)
    (hb : 2 < b.val) : tfsInstr (b :: r) = none := by
  have h0 : b.val ≠ 0 := by omega
  have h1 : b.val ≠ 1 := by omega
  have h2 : b.val ≠ 2 := by omega
  simp only [tfsInstr, deserInstr, if_neg h0, if_neg h1, if_neg h2]

theorem tfsInstr_overrun (p r : List Byte) (hp : p.length = 4)
    (hover : r.length < leToNat p) : tfsInstr ((1 : Byte) :: (p ++ r)) = none := by
  have h0 : (1 : Byte).val ≠ 0 := by decide
  have h1 : (1 : Byte).val = 1 := by decide
  simp only [tfsInstr, deserInstr, if_neg h0, if_pos h1]
  rw [readString, readU32_exact p r hp]
  simp only
  rw [if_neg (by omega)]

theorem tfsInstr_short_fixed (r : List Byte) (hr : r.length < 8) :
    tfsInstr ((2 : Byte) :: r) = none := by
  have h0 : (2 : Byte).val ≠ 0 := by decide
  have h1 : (2 : Byte).val ≠ 1 := by decide
  have h2 : (2 : Byte).val = 2 := by decide
  simp only [tfsInstr, deserInstr, if_neg h0, if_neg h1, if_pos h2]
  rw [readU64, readBytes]
  rw [if_neg (by omega)]
  rfl


theorem register_auth_fail (pid : List Byte) (a0 a1 a2 : AccountInfo)
    (rest : List AccountInfo) (name : List Byte) (ai : Bool) (vp : Nat)
    (m : Membership) (hm : tfsMembership a0.data = some m)
    (hcond : a2.is_signer = false ∨ a2.key ≠ m.authority) :
    process_register_member pid (a0 :: a1 :: a2 :: rest) name ai vp =
      (some (.Custom 3), a0 :: a1 :: a2 :: rest) := by
  simp only [process_register_member, hm]
  rw [if_pos hcond]

theorem update_auth_fail (pid : List Byte) (a0 a1 a2 : AccountInfo)
    (rest : List AccountInfo) (vp : Nat)
    (m : Membership) (hm : tfsMembership a0.data = some m)
    (hcond : a2.is_signer = false ∨ a2.key ≠ m.authority) :
    process_update_voting_power pid (a0 :: a1 :: a2 :: rest) vp =
      (some (.Custom 3), a0 :: a1 :: a2 :: rest) := by
  simp only [process_update_voting_power, hm]
  rw [if_pos hcond]

theorem initialize_not_signer (pid : List Byte) (a0 a1 : AccountInfo)
    (rest : List AccountInfo) (hsig : a1.is_signer = false) :
    processInitialize pid (a0 :: a1 :: rest) = (some (.Custom 3), a0 :: a1 :: rest) := by
  simp [processInitialize, hsig]

theorem initialize_signed (pid : List Byte) (a0 a1 : AccountInfo)
    (rest : List AccountInfo) (hsig : a1.is_signer = true)
    (hfit : 8 + a1.key.length ≤ a0.data.length) :
    processInitialize pid (a0 :: a1 :: rest) =
      (none,
        { a0 with data := encodeMembership ⟨0, a1.key⟩ ++
            a0.data.drop (8 + a1.key.length) } :: a1 :: rest) := by
  have hlen : (encodeMembership ⟨0, a1.key⟩).length = 8 + a1.key.length :=
    encodeMembership_length _
  have hs : storeInto a0.data (encodeMembership ⟨0, a1.key⟩) =
      (none, encodeMembership ⟨0, a1.key⟩ ++ a0.data.drop (8 + a1.key.length)) := by
    rw [storeInto, if_pos (by omega), hlen]
  simp only [processInitialize, hsig, Bool.true_eq_false, if_false, hs]


theorem register_success (pid : List Byte) (a0 a1 a2 : AccountInfo)
    (rest : List AccountInfo) (name : List Byte) (ai : Bool) (vp : Nat)
    (m : Membership) (hm : tfsMembership a0.data = some m)
    (hsig : a2.is_signer = true) (hkey : a2.key = m.authority)
    (hfit : 21 + name.length + a1.key.length ≤ a1.data.length) :
    process_register_member pid (a0 :: a1 :: a2 :: rest) name ai vp =
      (none,
        { a0 with data := encodeMembership ⟨m.member_count + 1, m.authority⟩ } ::
        { a1 with data := encodeMember ⟨m.member_count, name, ai, vp, a1.key⟩ ++
            a1.data.drop (21 + name.length + a1.key.length) } :: a2 :: rest) := by
  obtain ⟨ha0, hclt, halen, hlen40⟩ := tfsMembership_inv a0.data m hm
  have hcond : ¬(a2.is_signer = false ∨ a2.key ≠ m.authority) := by
    simp [hsig, hkey]
  have hmlen : (encodeMember ⟨m.member_count, name, ai, vp, a1.key⟩).length =
      21 + name.length + a1.key.length := encodeMember_length _
  have hs1 : storeInto a1.data (encodeMember ⟨m.member_count, name, ai, vp, a1.key⟩) =
      (none, encodeMember ⟨m.member_count, name, ai, vp, a1.key⟩ ++
        a1.data.drop (21 + name.length + a1.key.length)) := by
    rw [storeInto, if_pos (by omega), hmlen]
  have hrlen : (encodeMembership ⟨m.member_count + 1, m.authority⟩).length = 40 := by
    rw [encodeMembership_length]
    simp [halen]
  have hs2 : storeInto a0.data (encodeMembership ⟨m.member_count + 1, m.authority⟩) =
      (none, encodeMembership ⟨m.member_count + 1, m.authority⟩) := by
    rw [storeInto, if_pos (by omega)]
    rw [hrlen, List.drop_eq_nil_of_le (by omega), List.append_nil]
  simp only [process_register_member, hm, if_neg hcond, hs1, hs2]

theorem register_store_fail (pid : List Byte) (a0 a1 a2 : AccountInfo)
    (rest : List AccountInfo) (name : List Byte) (ai : Bool) (vp : Nat)
    (m : Membership) (hm : tfsMembership a0.data = some m)
    (hsig : a2.is_signer = true) (hkey : a2.key = m.authority)
    (hbig : a1.data.length < 21 + name.length + a1.key.length) :
    process_register_member pid (a0 :: a1 :: a2 :: rest) name ai vp =
      (some .BorshIoError,
        a0 :: { a1 with data :=
          (encodeMember ⟨m.member_count, name, ai, vp, a1.key⟩).take a1.data.length } ::
          a2 :: rest) := by
  have hcond : ¬(a2.is_signer = false ∨ a2.key ≠ m.authority) := by
    simp [hsig, hkey]
  have hmlen : (encodeMember ⟨m.member_count, name, ai, vp, a1.key⟩).length =
      21 + name.length + a1.key.length := encodeMember_length _
  have hs1 : storeInto a1.data (encodeMember ⟨m.member_count, name, ai, vp, a1.key⟩) =
      (some .BorshIoError,
        (encodeMember ⟨m.member_count, name, ai, vp, a1.key⟩).take a1.data.length) := by
    rw [storeInto, if_neg (by omega)]
  simp only [process_register_member, hm, if_neg hcond, hs1]

theorem update_success (pid : List Byte) (a0 a1 a2 : AccountInfo)
    (rest : List AccountInfo) (vp : Nat)
    (m : Membership) (hm : tfsMembership a0.data = some m)
    (hsig : a2.is_signer = true) (hkey : a2.key = m.authority)
    (mem : Member) (hmem : tfsMember a1.data = some mem) :
    process_update_voting_power pid (a0 :: a1 :: a2 :: rest) vp =
      (none,
        a0 :: { a1 with data := encodeMember { mem with voting_power := vp } } ::
          a2 :: rest) := by
  obtain ⟨ha1, hid, hnl, hnv, hvp0, hpk⟩ := tfsMember_inv a1.data mem hmem
  have hcond : ¬(a2.is_signer = false ∨ a2.key ≠ m.authority) := by
    simp [hsig, hkey]
  have hlen : (encodeMember { mem with voting_power := vp }).length =
      (encodeMember mem).length := by
    rw [encodeMember_length, encodeMember_length]
  have hs1 : storeInto a1.data (encodeMember { mem with voting_power := vp }) =
      (none, encodeMember { mem with voting_power := vp }) := by
    rw [storeInto, if_pos (by rw [hlen, ha1])]
    rw [hlen, ha1, List.drop_eq_nil_of_le (by omega), List.append_nil]
  simp only [process_update_voting_power, hm, if_neg hcond, hmem, hs1]


/-- Errors a handler can actually produce: Ok, a borsh io error, missing
accounts, or NotAuthorized (custom code 3). -/
def benignOutcome (e : Option ProgramError) : Prop :=
  e = none ∨ e = some .BorshIoError ∨ e = some .NotEnoughAccountKeys ∨
    e = some (.Custom 3)

theorem storeInto_outcome (b enc : List Byte) :
    (storeInto b enc).1 = none ∨ (storeInto b enc).1 = some .BorshIoError := by
  rw [storeInto]
  split
  · exact Or.inl rfl
  · exact Or.inr rfl

theorem initialize_outcome (pid : List Byte) (accs : List AccountInfo) :
    benignOutcome (processInitialize pid accs).1 := by
  rcases accs with _ | ⟨a0, accs⟩
  · exact Or.inr (Or.inr (Or.inl rfl))
  rcases accs with _ | ⟨a1, rest⟩
  · exact Or.inr (Or.inr (Or.inl rfl))
  simp only [processInitialize]
  split
  · exact Or.inr (Or.inr (Or.inr rfl))
  · rcases storeInto_outcome a0.data (encodeMembership ⟨0, a1.key⟩) with h | h
    · exact Or.inl h
    · exact Or.inr (Or.inl h)

theorem register_outcome (pid : List Byte) (accs : List AccountInfo)
    (name : List Byte) (ai : Bool) (vp : Nat) :
    benignOutcome (process_register_member pid accs name ai vp).1 := by
  rcases accs with _ | ⟨a0, accs⟩
  · exact Or.inr (Or.inr (Or.inl rfl))
  rcases accs with _ | ⟨a1, accs⟩
  · exact Or.inr (Or.inr (Or.inl rfl))
  rcases accs with _ | ⟨a2, rest⟩
  · exact Or.inr (Or.inr (Or.inl rfl))
  simp only [process_register_member]
  cases hm : tfsMembership a0.data with
  | none => exact Or.inr (Or.inl rfl)
  | some m =>
      simp only
      split
      · exact Or.inr (Or.inr (Or.inr rfl))
      · rcases hs1 : storeInto a1.data
            (encodeMember ⟨m.member_count, name, ai, vp, a1.key⟩) with ⟨e1, d1⟩
        cases e1 with
        | some e =>
            simp only
            have := storeInto_outcome a1.data
              (encodeMember ⟨m.member_count, name, ai, vp, a1.key⟩)
            rw [hs1] at this
            rcases this with h | h
            · exact absurd h (by simp)
            · injection h with h
              rw [h]
              exact Or.inr (Or.inl rfl)
        | none =>
            simp only
            rcases storeInto_outcome a0.data
                (encodeMembership { m with member_count := m.member_count + 1 }) with h | h
            · exact Or.inl h
            · exact Or.inr (Or.inl h)

theorem update_outcome (pid : List Byte) (accs : List AccountInfo) (vp : Nat) :
    benignOutcome (process_update_voting_power pid accs vp).1 := by
  rcases accs with _ | ⟨a0, accs⟩
  · exact Or.inr (Or.inr (Or.inl rfl))
  rcases accs with _ | ⟨a1, accs⟩
  · exact Or.inr (Or.inr (Or.inl rfl))
  rcases accs with _ | ⟨a2, rest⟩
  · exact Or.inr (Or.inr (Or.inl rfl))
  simp only [process_update_voting_power]
  cases hm : tfsMembership a0.data with
  | none => exact Or.inr (Or.inl rfl)
  | some m =>
      simp only
      split
      · exact Or.inr (Or.inr (Or.inr rfl))
      · cases hmem : tfsMember a1.data with
        | none => exact Or.inr (Or.inl rfl)
        | some mem =>
            simp only
            rcases storeInto_outcome a1.data
                (encodeMember { mem with voting_power := vp }) with h | h
            · exact Or.inl h
            · exact Or.inr (Or.inl h)

theorem process_outcome (pid : List Byte) (accs : List AccountInfo)
    (ds : List Byte) : benignOutcome (process_instruction pid accs ds).1 := by
  rw [process_instruction]
  cases tfsInstr ds with
  | none => exact Or.inr (Or.inl rfl)
  | some i =>
      cases i with
      | Initialize => exact initialize_outcome pid accs
      | RegisterMember name ai vp => exact register_outcome pid accs name ai vp
      | UpdateVotingPower vp => exact update_outcome pid accs vp


/-- Forgets the owner field of an account handle (the program never
reads it). -/
def stripOwner (a : AccountInfo) : AccountInfo := { a with owner := [] }

theorem stripOwner_key (a : AccountInfo) : (stripOwner a).key = a.key := rfl

theorem stripOwner_sig (a : AccountInfo) : (stripOwner a).is_signer = a.is_signer := rfl

theorem stripOwner_data (a : AccountInfo) : (stripOwner a).data = a.data := rfl

theorem initialize_strip (p q : List Byte) (accs : List AccountInfo) :
    processInitialize q (accs.map stripOwner) =
      ((processInitialize p accs).1, (processInitialize p accs).2.map stripOwner) := by
  rcases accs with _ | ⟨a0, accs⟩
  · simp [processInitialize]
  rcases accs with _ | ⟨a1, rest⟩
  · simp [processInitialize]
  simp only [List.map_cons, processInitialize, stripOwner_key, stripOwner_sig,
    stripOwner_data]
  by_cases hsig : a1.is_signer = false
  · rw [if_pos hsig, if_pos hsig]
    simp [stripOwner]
  · rw [if_neg hsig, if_neg hsig]
    rcases hs : storeInto a0.data (encodeMembership ⟨0, a1.key⟩) with ⟨e, d⟩
    simp [stripOwner]

theorem register_strip (p q : List Byte) (accs : List AccountInfo)
    (name : List Byte) (ai : Bool) (vp : Nat) :
    process_register_member q (accs.map stripOwner) name ai vp =
      ((process_register_member p accs name ai vp).1,
        (process_register_member p accs name ai vp).2.map stripOwner) := by
  rcases accs with _ | ⟨a0, accs⟩
  · simp [process_register_member]
  rcases accs with _ | ⟨a1, accs⟩
  · simp [process_register_member]
  rcases accs with _ | ⟨a2, rest⟩
  · simp [process_register_member]
  simp only [List.map_cons, process_register_member, stripOwner_key, stripOwner_sig,
    stripOwner_data]
  cases hm : tfsMembership a0.data with
  | none => simp [hm]
  | some m =>
      simp only [hm]
      by_cases hc : (a2.is_signer = false ∨ a2.key ≠ m.authority)
      · rw [if_pos hc, if_pos hc]
        simp [stripOwner]
      · rw [if_neg hc, if_neg hc]
        rcases hs1 : storeInto a1.data
            (encodeMember ⟨m.member_count, name, ai, vp, a1.key⟩) with ⟨e1, d1⟩
        cases e1 with
        | some e => simp [stripOwner]
        | none =>
            simp only
            rcases hs2 : storeInto a0.data
                (encodeMembership { m with member_count := m.member_count + 1 }) with ⟨e2, d0⟩
            simp [stripOwner]

theorem update_strip (p q : List Byte) (accs : List AccountInfo) (vp : Nat) :
    process_update_voting_power q (accs.map stripOwner) vp =
      ((process_update_voting_power p accs vp).1,
        (process_update_voting_power p accs vp).2.map stripOwner) := by
  rcases accs with _ | ⟨a0, accs⟩
  · simp [process_update_voting_power]
  rcases accs with _ | ⟨a1, accs⟩
  · simp [process_update_voting_power]
  rcases accs with _ | ⟨a2, rest⟩
  · simp [process_update_voting_power]
  simp only [List.map_cons, process_update_voting_power, stripOwner_key, stripOwner_sig,
    stripOwner_data]
  cases hm : tfsMembership a0.data with
  | none => simp [hm]
  | some m =>
      simp only [hm]
      by_cases hc : (a2.is_signer = false ∨ a2.key ≠ m.authority)
      · rw [if_pos hc, if_pos hc]
        simp [stripOwner]
      · rw [if_neg hc, if_neg hc]
        cases hmem : tfsMember a1.data with
        | none => simp [hmem]
        | some mem =>
            simp only [hmem]
            rcases hs1 : storeInto a1.data
                (encodeMember { mem with voting_power := vp }) with ⟨e1, d1⟩
            simp [stripOwner]


theorem encodeMembership_mod (n : Nat) (auth : List Byte) :
    encodeMembership ⟨n % 2 ^ 64, auth⟩ = encodeMembership ⟨n, auth⟩ := by
  have h : (2 : Nat) ^ 64 = 256 ^ 8 := by norm_num
  simp only [encodeMembership]
  rw [h, natToLe_mod]

/-- One invocation in a sequence of calls targeting a single registry
buffer: metadata of account 0 (whose data field is replaced by the
chained registry bytes), the remaining accounts, the raw instruction
bytes and the program identity. -/
structure Invocation where
  progId : List Byte
  regMeta : AccountInfo
  others : List AccountInfo
  instr : List Byte

/-- Applies one invocation to the registry buffer. A failed invocation
leaves the buffer as it was, per the calling convention: the host
discards every buffer write of a failed invocation. -/
def runInvocation (reg : List Byte) (iv : Invocation) : List Byte :=
  match process_instruction iv.progId
      ({ iv.regMeta with data := reg } :: iv.others) iv.instr with
  | (none, a0 :: _) => a0.data
  | (none, []) => reg
  | (some _, _) => reg

/-- Applies a whole sequence of invocations to the registry buffer. -/
def runSeq (reg : List Byte) (ivs : List Invocation) : List Byte :=
  ivs.foldl runInvocation reg

theorem update_member_decode_fail (pid : List Byte) (a0 a1 a2 : AccountInfo)
    (rest : List AccountInfo) (vp : Nat)
    (m : Membership) (hm : tfsMembership a0.data = some m)
    (hsig : a2.is_signer = true) (hkey : a2.key = m.authority)
    (hmem : tfsMember a1.data = none) :
    process_update_voting_power pid (a0 :: a1 :: a2 :: rest) vp =
      (some .BorshIoError, a0 :: a1 :: a2 :: rest) := by
  have hcond : ¬(a2.is_signer = false ∨ a2.key ≠ m.authority) := by
    simp [hsig, hkey]
  simp only [process_update_voting_power, hm, if_neg hcond, hmem]

theorem runInvocation_step (c : Nat) (A : List Byte) (iv : Invocation)
    (hc : c < 2 ^ 64) (hA : A.length = 32)
    (hni : tfsInstr iv.instr ≠ some .Initialize) :
    runInvocation (encodeMembership ⟨c, A⟩) iv = encodeMembership ⟨c, A⟩ ∨
      runInvocation (encodeMembership ⟨c, A⟩) iv =
        encodeMembership ⟨(c + 1) % 2 ^ 64, A⟩ := by
  rw [runInvocation, process_instruction]
  set a0 : AccountInfo :=
    { iv.regMeta with data := encodeMembership ⟨c, A⟩ } with ha0
  have hdec : tfsMembership a0.data = some ⟨c, A⟩ :=
    tfsMembership_encode c A hc hA
  cases hi : tfsInstr iv.instr with
  | none => exact Or.inl rfl
  | some ins =>
      cases ins with
      | Initialize => exact absurd hi hni
      | RegisterMember name ai vp =>
          simp only
          rcases ho : iv.others with _ | ⟨a1, others⟩
          · simp [process_register_member]
          rcases others with _ | ⟨a2, rest⟩
          · simp [process_register_member]
          by_cases hcond : a2.is_signer = false ∨ a2.key ≠
              ((⟨c, A⟩ : Membership)).authority
          · rw [register_auth_fail iv.progId a0 a1 a2 rest name ai vp ⟨c, A⟩ hdec hcond]
            exact Or.inl rfl
          · push_neg at hcond
            obtain ⟨hsig0, hkey⟩ := hcond
            have hsig : a2.is_signer = true := by
              cases h : a2.is_signer
              · exact absurd h hsig0
              · rfl
            by_cases hfit : 21 + name.length + a1.key.length ≤ a1.data.length
            · rw [register_success iv.progId a0 a1 a2 rest name ai vp ⟨c, A⟩ hdec
                hsig hkey hfit]
              right
              rw [encodeMembership_mod]
            · rw [register_store_fail iv.progId a0 a1 a2 rest name ai vp ⟨c, A⟩ hdec
                hsig hkey (by omega)]
              exact Or.inl rfl
      | UpdateVotingPower vp =>
          simp only
          rcases ho : iv.others with _ | ⟨a1, others⟩
          · simp [process_update_voting_power]
          rcases others with _ | ⟨a2, rest⟩
          · simp [process_update_voting_power]
          by_cases hcond : a2.is_signer = false ∨ a2.key ≠
              ((⟨c, A⟩ : Membership)).authority
          · rw [update_auth_fail iv.progId a0 a1 a2 rest vp ⟨c, A⟩ hdec hcond]
            exact Or.inl rfl
          · push_neg at hcond
            obtain ⟨hsig0, hkey⟩ := hcond
            have hsig : a2.is_signer = true := by
              cases h : a2.is_signer
              · exact absurd h hsig0
              · rfl
            cases hmem : tfsMember a1.data with
            | none =>
                rw [update_member_decode_fail iv.progId a0 a1 a2 rest vp ⟨c, A⟩ hdec
                  hsig hkey hmem]
                exact Or.inl rfl
            | some mem =>
                rw [update_success iv.progId a0 a1 a2 rest vp ⟨c, A⟩ hdec hsig hkey
                  mem hmem]
                exact Or.inl rfl


/-- Decoded member count field of a registry buffer (first 8 bytes,
little-endian). -/
def countOf (bs : List Byte) : Nat := leToNat (bs.take 8)

/-- Authority field of a registry buffer (bytes 8 to 39). -/
def authOf (bs : List Byte) : List Byte := bs.drop 8

theorem countOf_encode (n : Nat) (auth : List Byte) :
    countOf (encodeMembership ⟨n, auth⟩) = n % 2 ^ 64 := by
  have hl := natToLe_length 8 n
  rw [countOf, encodeMembership]
  simp only
  rw [List.take_append_of_le_length (by rw [hl]),
    List.take_of_length_le (by rw [hl]), leToNat_natToLe]
  norm_num

theorem authOf_encode (n : Nat) (auth : List Byte) :
    authOf (encodeMembership ⟨n, auth⟩) = auth := by
  have hl := natToLe_length 8 n
  rw [authOf, encodeMembership]
  simp only
  rw [List.drop_append_of_le_length (by rw [hl]),
    List.drop_eq_nil_of_le (by rw [hl])]
  rfl

theorem runSeq_append (s : List Byte) (l1 l2 : List Invocation) :
    runSeq s (l1 ++ l2) = runSeq (runSeq s l1) l2 := by
  simp [runSeq, List.foldl_append]

theorem runSeq_count (A : List Byte) (hA : A.length = 32) (ivs : List Invocation) :
    ∀ (c : Nat), c < 2 ^ 64 →
      (∀ iv ∈ ivs, tfsInstr iv.instr ≠ some .Initialize) →
      ∃ k, k ≤ ivs.length ∧ runSeq (encodeMembership ⟨c, A⟩) ivs =
        encodeMembership ⟨(c + k) % 2 ^ 64, A⟩ := by
  induction ivs with
  | nil =>
      intro c hc _
      refine ⟨0, by simp, ?_⟩
      rw [runSeq, List.foldl_nil, Nat.add_zero, Nat.mod_eq_of_lt hc]
  | cons iv ivs ih =>
      intro c hc hni
      have hni1 : tfsInstr iv.instr ≠ some .Initialize :=
        hni iv (List.mem_cons_self iv ivs)
      have hni2 : ∀ x ∈ ivs, tfsInstr x.instr ≠ some .Initialize :=
        fun x hx => hni x (List.mem_cons_of_mem iv hx)
      rcases runInvocation_step c A iv hc hA hni1 with h | h
      · obtain ⟨k, hk, he⟩ := ih c hc hni2
        refine ⟨k, by simp; omega, ?_⟩
        rw [runSeq, List.foldl_cons, h]
        exact he
      · have hc2 : (c + 1) % 2 ^ 64 < 2 ^ 64 := Nat.mod_lt _ (by norm_num)
        obtain ⟨k, hk, he⟩ := ih ((c + 1) % 2 ^ 64) hc2 hni2
        refine ⟨k + 1, by simp; omega, ?_⟩
        rw [runSeq, List.foldl_cons, h]
        have hmm : ((c + 1) % 2 ^ 64 + k) % 2 ^ 64 = (c + (k + 1)) % 2 ^ 64 := by
          rw [Nat.mod_add_mod]
          congr 1
          omega
        rw [← hmm]
        exact he


theorem process_decode_fail (pid : List Byte) (accs : List AccountInfo)
    (ds : List Byte) (h : tfsInstr ds = none) :
    process_instruction pid accs ds = (some .BorshIoError, accs) := by
  rw [process_instruction, h]

theorem memberId_bytes (m : Member) (z : List Byte) :
    leToNat ((encodeMember m ++ z).take 8) = m.id % 2 ^ 64 := by
  have hshape : encodeMember m ++ z =
      natToLe 8 m.id ++ (natToLe 4 m.name.length ++ (m.name ++
        ((if m.is_ai then (1 : Byte) else 0) :: (natToLe 8 m.voting_power ++
          (m.pubkey ++ z))))) := by
    simp [encodeMember, List.append_assoc]
  have hl := natToLe_length 8 m.id
  rw [hshape, List.take_append_of_le_length (by rw [hl]),
    List.take_of_length_le (by rw [hl]), leToNat_natToLe]
  norm_num

/-- C1: for RegisterMember and UpdateVotingPower, when the Registry
decodes from account 0 but account 2 is not a signer or its identity
differs from the decoded authority, the handler returns NotAuthorized
(custom error 3) and the whole account list, every buffer included, is
returned byte-for-byte unchanged. -/
theorem c1_auth_gate (pid : List Byte) (a0 a1 a2 : AccountInfo)
    (rest : List AccountInfo) (name : List Byte) (ai : Bool) (vp vp2 : Nat)
    (m : Membership) (hm : tfsMembership a0.data = some m)
    (hcond : a2.is_signer = false ∨ a2.key ≠ m.authority) :
    process_register_member pid (a0 :: a1 :: a2 :: rest) name ai vp =
      (some (ProgramError.Custom 3), a0 :: a1 :: a2 :: rest) ∧
    process_update_voting_power pid (a0 :: a1 :: a2 :: rest) vp2 =
      (some (ProgramError.Custom 3), a0 :: a1 :: a2 :: rest) :=
  ⟨register_auth_fail pid a0 a1 a2 rest name ai vp m hm hcond,
    update_auth_fail pid a0 a1 a2 rest vp2 m hm hcond⟩

/-- C4: when the Registry decodes and the authority check passes but the
encoded Member exceeds the member buffer capacity, the invocation fails
with the borsh io error and account 0, the Registry buffer, is returned
unchanged: the count increment is never persisted without a successful
member write (the member write is performed first). -/
theorem c4_atomic_pairing (pid : List Byte) (a0 a1 a2 : AccountInfo)
    (rest : List AccountInfo) (name : List Byte) (ai : Bool) (vp : Nat)
    (m : Membership) (hm : tfsMembership a0.data = some m)
    (hsig : a2.is_signer = true) (hkey : a2.key = m.authority)
    (hbig : a1.data.length < 21 + name.length + a1.key.length) :
    (process_register_member pid (a0 :: a1 :: a2 :: rest) name ai vp).1 =
      some ProgramError.BorshIoError ∧
    (process_register_member pid (a0 :: a1 :: a2 :: rest) name ai vp).2.head? =
      some a0 := by
  rw [register_store_fail pid a0 a1 a2 rest name ai vp m hm hsig hkey hbig]
  exact ⟨rfl, rfl⟩

/-- C5: a successful UpdateVotingPower on a decodable Member overwrites
only the voting power: the member buffer afterwards holds exactly the
encoding of the old record with voting power replaced, and it decodes
back to that record, so id, name, is_ai and pubkey are unchanged. -/
theorem c5_update_frame (pid : List Byte) (a0 a1 a2 : AccountInfo)
    (rest : List AccountInfo) (vp : Nat)
    (m : Membership) (hm : tfsMembership a0.data = some m)
    (hsig : a2.is_signer = true) (hkey : a2.key = m.authority)
    (mem : Member) (hmem : tfsMember a1.data = some mem) (hvp : vp < 2 ^ 64) :
    process_update_voting_power pid (a0 :: a1 :: a2 :: rest) vp =
      (none,
        a0 ::
          { a1 with data := encodeMember ⟨mem.id, mem.name, mem.is_ai, vp, mem.pubkey⟩ } ::
          a2 :: rest) ∧
    tfsMember (encodeMember ⟨mem.id, mem.name, mem.is_ai, vp, mem.pubkey⟩) =
      some ⟨mem.id, mem.name, mem.is_ai, vp, mem.pubkey⟩ := by
  obtain ⟨ha1, hid, hnl, hnv, hvp0, hpk⟩ := tfsMember_inv a1.data mem hmem
  have hrec : ({ mem with voting_power := vp } : Member) =
      ⟨mem.id, mem.name, mem.is_ai, vp, mem.pubkey⟩ := rfl
  constructor
  · rw [update_success pid a0 a1 a2 rest vp m hm hsig hkey mem hmem, hrec]
  · exact tfsMember_encode ⟨mem.id, mem.name, mem.is_ai, vp, mem.pubkey⟩
      hid hnl hnv hvp hpk

/-- C6: Initialize fails with NotAuthorized and touches nothing when
account 1 did not sign; when account 1 signed, it overwrites account 0
with the fresh Registry record, count 0 and authority equal to the
signer identity, regardless of any prior content of the buffer: in
particular a repeated Initialize succeeds and resets the counter. -/
theorem c6_initialize_reset (pid : List Byte) (a0 a1 : AccountInfo)
    (rest : List AccountInfo) :
    (a1.is_signer = false →
      processInitialize pid (a0 :: a1 :: rest) =
        (some (ProgramError.Custom 3), a0 :: a1 :: rest)) ∧
    (a1.is_signer = true → a1.key.length = 32 → a0.data.length = 40 →
      processInitialize pid (a0 :: a1 :: rest) =
        (none, { a0 with data := encodeMembership ⟨0, a1.key⟩ } :: a1 :: rest) ∧
      tfsMembership (encodeMembership ⟨0, a1.key⟩) = some ⟨0, a1.key⟩) := by
  constructor
  · intro hsig
    exact initialize_not_signer pid a0 a1 rest hsig
  · intro hsig hkl hcap
    constructor
    · rw [initialize_signed pid a0 a1 rest hsig (by omega)]
      rw [List.drop_eq_nil_of_le (by omega), List.append_nil]
    · exact tfsMembership_encode 0 a1.key (by norm_num) hkl


/-- C2 (amended): a successful RegisterMember against a Registry that
decodes with count n writes the Member record with id n, the supplied
name, flag and voting power, and the member account identity as pubkey,
and writes back the Registry with count n + 1 and the authority
unchanged — provided n + 1 < 2^64; at n = 2^64 - 1 the stored count
wraps to 0 under the wrapping u64 semantics of the release build. -/
theorem c2_register_effect (pid : List Byte) (a0 a1 a2 : AccountInfo)
    (rest : List AccountInfo) (name : List Byte) (ai : Bool) (vp : Nat)
    (n : Nat) (m : Membership) (hm : tfsMembership a0.data = some m)
    (hn : m.member_count = n)
    (hsig : a2.is_signer = true) (hkey : a2.key = m.authority)
    (hwrap : n + 1 < 2 ^ 64)
    (hname : name.length < 2 ^ 32) (hval : utf8Valid name = true)
    (hvp : vp < 2 ^ 64) (hk1 : a1.key.length = 32)
    (hcap : a1.data.length = 21 + name.length + a1.key.length) :
    process_register_member pid (a0 :: a1 :: a2 :: rest) name ai vp =
      (none,
        { a0 with data := encodeMembership ⟨n + 1, m.authority⟩ } ::
          { a1 with data := encodeMember ⟨n, name, ai, vp, a1.key⟩ } ::
          a2 :: rest) ∧
    tfsMember (encodeMember ⟨n, name, ai, vp, a1.key⟩) =
      some ⟨n, name, ai, vp, a1.key⟩ ∧
    tfsMembership (encodeMembership ⟨n + 1, m.authority⟩) =
      some ⟨n + 1, m.authority⟩ := by
  obtain ⟨ha0, hclt, halen, hlen40⟩ := tfsMembership_inv a0.data m hm
  refine ⟨?_, ?_, ?_⟩
  · rw [register_success pid a0 a1 a2 rest name ai vp m hm hsig hkey (by omega)]
    rw [List.drop_eq_nil_of_le (by omega), List.append_nil, hn]
  · exact tfsMember_encode ⟨n, name, ai, vp, a1.key⟩ (show n < 2 ^ 64 by omega)
      hname hval hvp hk1
  · exact tfsMembership_encode (n + 1) m.authority hwrap halen

/-- C3 (amended): starting from the registry buffer produced by the
creating Initialize with authority A, along any sequence of invocations
that contains no further Initialize instruction and has fewer than 2^64
members, the decoded member count of the registry buffer is monotone
along the trace and the authority bytes stay equal to A. Without the
no-Initialize condition the original claim fails: a second Initialize
resets the count and replaces the authority. -/
theorem c3_count_monotone (A : List Byte) (ivs : List Invocation)
    (hA : A.length = 32) (hlen : ivs.length < 2 ^ 64)
    (hni : ∀ iv ∈ ivs, tfsInstr iv.instr ≠ some MembershipInstruction.Initialize)
    (i j : Nat) (hij : i ≤ j) (hj : j ≤ ivs.length) :
    countOf (runSeq (encodeMembership ⟨0, A⟩) (ivs.take i)) ≤
      countOf (runSeq (encodeMembership ⟨0, A⟩) (ivs.take j)) ∧
    authOf (runSeq (encodeMembership ⟨0, A⟩) (ivs.take j)) = A := by
  have hW : (0 : Nat) < 2 ^ 64 := by norm_num
  have hni_i : ∀ x ∈ ivs.take i, tfsInstr x.instr ≠ some .Initialize :=
    fun x hx => hni x (List.take_subset i ivs hx)
  obtain ⟨k1, hk1, he1⟩ := runSeq_count A hA (ivs.take i) 0 hW hni_i
  have hk1i : k1 ≤ i := le_trans hk1 (by rw [List.length_take]; omega)
  have hk1lt : k1 < 2 ^ 64 := by omega
  have hn1 : (0 + k1) % 2 ^ 64 = k1 := by
    rw [Nat.zero_add, Nat.mod_eq_of_lt hk1lt]
  rw [hn1] at he1
  have hsplit : ivs.take j = ivs.take i ++ (ivs.take j).drop i := by
    conv_lhs => rw [← List.take_append_drop i (ivs.take j)]
    rw [List.take_take, min_eq_left hij]
  have hni_m : ∀ x ∈ (ivs.take j).drop i, tfsInstr x.instr ≠ some .Initialize :=
    fun x hx => hni x (List.take_subset j ivs (List.drop_subset i _ hx))
  obtain ⟨k2, hk2, he2⟩ := runSeq_count A hA ((ivs.take j).drop i) k1 hk1lt hni_m
  have hk2b : k2 ≤ j - i := by
    rw [List.length_drop, List.length_take] at hk2
    omega
  have hsum : k1 + k2 < 2 ^ 64 := by omega
  have hstatej : runSeq (encodeMembership ⟨0, A⟩) (ivs.take j) =
      encodeMembership ⟨k1 + k2, A⟩ := by
    rw [hsplit, runSeq_append, he1, he2, Nat.mod_eq_of_lt hsum]
  constructor
  · rw [he1, hstatej, countOf_encode, countOf_encode,
      Nat.mod_eq_of_lt hk1lt, Nat.mod_eq_of_lt hsum]
    omega
  · rw [hstatej, authOf_encode]

/-- C8: an instruction byte sequence that is empty, carries an
unrecognized discriminant, has a name length prefix overrunning the
remaining bytes, lacks the bytes of a fixed-width field, or has trailing
bytes after a complete instruction, fails `try_from_slice`; and whenever
the decode fails, process_instruction returns the borsh decode error
with every account buffer untouched. -/
theorem c8_decode_all_or_nothing :
    (∀ (pid : List Byte) (accs : List AccountInfo) (ds : List Byte),
      tfsInstr ds = none →
        process_instruction pid accs ds = (some .BorshIoError, accs)) ∧
    tfsInstr ([] : List Byte) = none ∧
    (∀ (b : Byte) (r : List Byte), 2 < b.val → tfsInstr (b :: r) = none) ∧
    (∀ (p r : List Byte), p.length = 4 → r.length < leToNat p →
      tfsInstr ((1 : Byte) :: (p ++ r)) = none) ∧
    (∀ (r : List Byte), r.length < 8 → tfsInstr ((2 : Byte) :: r) = none) ∧
    (∀ (bs e : List Byte) (i : MembershipInstruction),
      tfsInstr bs = some i → e ≠ [] → tfsInstr (bs ++ e) = none) := by
  refine ⟨?_, rfl, tfsInstr_bad_discriminant, tfsInstr_overrun,
    tfsInstr_short_fixed, ?_⟩
  · exact fun pid accs ds h => process_decode_fail pid accs ds h
  · exact fun bs e i h he => tfsInstr_trailing bs e i h he

/-- C9: the declared errors MemberAlreadyExists (custom code 1) and
MemberNotFound (custom code 2) are unreachable: no invocation returns
them; and RegisterMember succeeds even when the member buffer already
holds a previously written Member record, silently overwriting it. -/
theorem c9_unreachable_errors :
    (∀ (pid : List Byte) (accs : List AccountInfo) (ds : List Byte),
      (process_instruction pid accs ds).1 ≠ some (ProgramError.Custom 1) ∧
      (process_instruction pid accs ds).1 ≠ some (ProgramError.Custom 2)) ∧
    (∀ (pid : List Byte) (a0 a1 a2 : AccountInfo) (rest : List AccountInfo)
      (name : List Byte) (ai : Bool) (vp : Nat) (m : Membership) (old : Member),
      tfsMembership a0.data = some m → a2.is_signer = true →
      a2.key = m.authority → tfsMember a1.data = some old →
      21 + name.length + a1.key.length ≤ a1.data.length →
      (process_register_member pid (a0 :: a1 :: a2 :: rest) name ai vp).1 = none) := by
  constructor
  · intro pid accs ds
    rcases process_outcome pid accs ds with h | h | h | h <;> rw [h] <;>
      exact ⟨by simp, by simp⟩
  · intro pid a0 a1 a2 rest name ai vp m old hm hsig hkey hold hfit
    rw [register_success pid a0 a1 a2 rest name ai vp m hm hsig hkey hfit]

/-- C10: the outcome of process_instruction does not depend on the
program identity argument nor on the owner field of any account: with
any other program identity and all owners forgotten, the error result is
identical and the resulting accounts, buffers included, agree pointwise
up to the forgotten owner field. -/
theorem c10_pid_owner_independent (p q : List Byte) (accs : List AccountInfo)
    (ds : List Byte) :
    process_instruction p accs ds = process_instruction q accs ds ∧
    process_instruction q (accs.map stripOwner) ds =
      ((process_instruction p accs ds).1,
        (process_instruction p accs ds).2.map stripOwner) := by
  constructor
  · rfl
  · rw [process_instruction, process_instruction]
    cases tfsInstr ds with
    | none => simp
    | some i =>
        cases i with
        | Initialize => exact initialize_strip p q accs
        | RegisterMember name ai vp => exact register_strip p q accs name ai vp
        | UpdateVotingPower vp => exact update_strip p q accs vp


/-- One RegisterMember call in a chain against a single registry buffer:
the registry account metadata (data replaced by the chained bytes), the
member account, the authority account, extra accounts and the
instruction fields. -/
structure RegCall where
  progId : List Byte
  regMeta : AccountInfo
  memberAcc : AccountInfo
  authAcc : AccountInfo
  extra : List AccountInfo
  name : List Byte
  is_ai : Bool
  voting_power : Nat

/-- Runs a list of RegisterMember calls against the registry buffer,
failing (none) as soon as one call fails, and collecting the id field,
as stored in the first 8 bytes of each written member buffer, of every
registered member. -/
def chainRegisters (reg : List Byte) : List RegCall → Option (List Byte × List Nat)
  | [] => some (reg, [])
  | c :: cs =>
    match process_register_member c.progId
        ({ c.regMeta with data := reg } :: c.memberAcc :: c.authAcc :: c.extra)
        c.name c.is_ai c.voting_power with
    | (none, a0 :: a1 :: _) =>
        match chainRegisters a0.data cs with
        | none => none
        | some (r, ids) => some (r, leToNat (a1.data.take 8) :: ids)
    | _ => none

theorem chainRegisters_inv (A : List Byte) (hA : A.length = 32)
    (cs : List RegCall) :
    ∀ (c : Nat), c < 2 ^ 64 →
      ∀ (r : List Byte) (ids : List Nat),
        chainRegisters (encodeMembership ⟨c, A⟩) cs = some (r, ids) →
        r = encodeMembership ⟨(c + cs.length) % 2 ^ 64, A⟩ ∧
        ids = (List.range cs.length).map (fun t => (c + t) % 2 ^ 64) := by
  induction cs with
  | nil =>
      intro c hc r ids h
      rw [chainRegisters] at h
      injection h with h
      injection h with h1 h2
      subst h1; subst h2
      constructor
      · simp only [List.length_nil, Nat.add_zero, Nat.mod_eq_of_lt hc]
      · rfl
  | cons call cs ih =>
      intro c hc r ids h
      rw [chainRegisters] at h
      set a0 : AccountInfo := { call.regMeta with data := encodeMembership ⟨c, A⟩ }
        with ha0
      have hdec : tfsMembership a0.data = some ⟨c, A⟩ :=
        tfsMembership_encode c A hc hA
      by_cases hcond : call.authAcc.is_signer = false ∨ call.authAcc.key ≠
          ((⟨c, A⟩ : Membership)).authority
      · rw [register_auth_fail call.progId a0 call.memberAcc call.authAcc call.extra
          call.name call.is_ai call.voting_power ⟨c, A⟩ hdec hcond] at h
        exact absurd h (by simp)
      · push_neg at hcond
        obtain ⟨hsig0, hkey⟩ := hcond
        have hsig : call.authAcc.is_signer = true := by
          cases hx : call.authAcc.is_signer
          · exact absurd hx hsig0
          · rfl
        by_cases hfit : 21 + call.name.length + call.memberAcc.key.length ≤
            call.memberAcc.data.length
        · rw [register_success call.progId a0 call.memberAcc call.authAcc call.extra
            call.name call.is_ai call.voting_power ⟨c, A⟩ hdec hsig hkey hfit] at h
          simp only at h
          rw [← encodeMembership_mod (c + 1)] at h
          have hc1 : (c + 1) % 2 ^ 64 < 2 ^ 64 := Nat.mod_lt _ (by norm_num)
          cases hch : chainRegisters
              (encodeMembership ⟨(c + 1) % 2 ^ 64, A⟩) cs with
          | none => rw [hch] at h; exact absurd h (by simp)
          | some p =>
              obtain ⟨r2, ids2⟩ := p
              rw [hch] at h
              simp only at h
              injection h with h
              injection h with h1 h2
              subst h1; subst h2
              obtain ⟨hr2, hids2⟩ := ih ((c + 1) % 2 ^ 64) hc1 r2 ids2 hch
              constructor
              · rw [hr2, List.length_cons]
                have : ((c + 1) % 2 ^ 64 + cs.length) % 2 ^ 64 =
                    (c + (cs.length + 1)) % 2 ^ 64 := by
                  rw [Nat.mod_add_mod]
                  congr 1
                  omega
                rw [this]
              · rw [hids2, memberId_bytes]
                simp only [List.length_cons, List.range_succ_eq_map,
                  List.map_cons, List.map_map]
                congr 1
                apply List.map_congr_left
                intro t _
                simp only [Function.comp_apply]
                rw [Nat.mod_add_mod]
                congr 1
                omega
        · rw [register_store_fail call.progId a0 call.memberAcc call.authAcc
            call.extra call.name call.is_ai call.voting_power ⟨c, A⟩ hdec hsig hkey
            (by omega)] at h
          exact absurd h (by simp)


/-- C7 (amended): a successful Initialize signed by account 1 creates
the Registry with count 0, and for every N < 2^64, after N successful
RegisterMember calls chained on that Registry with no intervening
Initialize, the Registry decodes with member count N and the ids stored
in the member buffers are exactly 0, 1, ..., N - 1 with no repeats. At
N = 2^64 the count wraps and the original claim fails. -/
theorem c7_monotone_ids (pid : List Byte) (a0 a1 : AccountInfo)
    (rest : List AccountInfo) (hsig : a1.is_signer = true)
    (hkl : a1.key.length = 32) (hcap : a0.data.length = 40)
    (N : Nat) (hN : N < 2 ^ 64) :
    processInitialize pid (a0 :: a1 :: rest) =
      (none, { a0 with data := encodeMembership ⟨0, a1.key⟩ } :: a1 :: rest) ∧
    (∀ (cs : List RegCall) (r : List Byte) (ids : List Nat), cs.length = N →
      chainRegisters (encodeMembership ⟨0, a1.key⟩) cs = some (r, ids) →
      tfsMembership r = some ⟨N, a1.key⟩ ∧ ids = List.range N ∧ ids.Nodup) := by
  constructor
  · rw [initialize_signed pid a0 a1 rest hsig (by omega)]
    rw [List.drop_eq_nil_of_le (by omega), List.append_nil]
  · intro cs r ids hlen hch
    subst hlen
    obtain ⟨hr, hids⟩ := chainRegisters_inv a1.key hkl cs 0 (by norm_num) r ids hch
    have hn : (0 + cs.length) % 2 ^ 64 = cs.length := by
      rw [Nat.zero_add, Nat.mod_eq_of_lt hN]
    have hids2 : ids = List.range cs.length := by
      rw [hids]
      have hpt : ∀ t ∈ List.range cs.length, (0 + t) % 2 ^ 64 = t := by
        intro t ht
        rw [List.mem_range] at ht
        rw [Nat.zero_add, Nat.mod_eq_of_lt (by omega)]
      rw [List.map_congr_left hpt]
      simp
    refine ⟨?_, hids2, hids2 ▸ List.nodup_range cs.length⟩
    rw [hr, hn]
    exact tfsMembership_encode cs.length a1.key hN hkl

def cxA : List Byte := List.replicate 32 1

def cxRegMeta : AccountInfo := ⟨List.replicate 32 0, false, [], []⟩

def cxMemberAcc : AccountInfo := ⟨List.replicate 32 3, false, [], List.replicate 53 0⟩

def cxAuthA : AccountInfo := ⟨cxA, true, [], []⟩

def cxAuthB : AccountInfo := ⟨List.replicate 32 2, true, [], []⟩

def cxCall : RegCall := ⟨[], cxRegMeta, cxMemberAcc, cxAuthA, [], [], false, 0⟩

theorem cxChain (k : Nat) : ∀ c, c < 2 ^ 64 →
    chainRegisters (encodeMembership ⟨c, cxA⟩) (List.replicate k cxCall) =
      some (encodeMembership ⟨(c + k) % 2 ^ 64, cxA⟩,
        (List.range k).map (fun t => (c + t) % 2 ^ 64)) := by
  induction k with
  | zero =>
      intro c hc
      simp only [List.replicate, chainRegisters, List.range_zero, List.map_nil,
        Nat.add_zero, Nat.mod_eq_of_lt hc]
  | succ k ih =>
      intro c hc
      rw [List.replicate_succ, chainRegisters]
      set a0 : AccountInfo := { cxCall.regMeta with data := encodeMembership ⟨c, cxA⟩ }
        with ha0
      have hdec : tfsMembership a0.data = some ⟨c, cxA⟩ :=
        tfsMembership_encode c cxA hc (by simp [cxA])
      rw [register_success cxCall.progId a0 cxCall.memberAcc cxCall.authAcc
        cxCall.extra cxCall.name cxCall.is_ai cxCall.voting_power ⟨c, cxA⟩ hdec
        rfl rfl (by decide)]
      simp only
      rw [← encodeMembership_mod (c + 1)]
      rw [ih ((c + 1) % 2 ^ 64) (Nat.mod_lt _ (by norm_num))]
      simp only [memberId_bytes]
      have h1 : ((c + 1) % 2 ^ 64 + k) % 2 ^ 64 = (c + (k + 1)) % 2 ^ 64 := by
        rw [Nat.mod_add_mod]
        congr 1
        omega
      rw [h1]
      have hmap : (List.range k).map (fun t => ((c + 1) % 2 ^ 64 + t) % 2 ^ 64) =
          (List.range k).map (fun t => (c + (t + 1)) % 2 ^ 64) := by
        apply List.map_congr_left
        intro t _
        rw [Nat.mod_add_mod]
        congr 1
        omega
      have hl : (List.range (k + 1)).map (fun t => (c + t) % 2 ^ 64) =
          c :: (List.range k).map (fun t => (c + (t + 1)) % 2 ^ 64) := by
        rw [List.range_succ_eq_map, List.map_cons, List.map_map]
        congr 1
        show (c + 0) % 2 ^ 64 = c
        rw [Nat.add_zero, Nat.mod_eq_of_lt hc]
      rw [hl, ← hmap, Nat.mod_eq_of_lt hc]


/-- C7 counterexample: with N = 2^64, all N RegisterMember calls of the
chain succeed, yet the final registry buffer decodes with member count
0, not N: the u64 counter wraps, so the claim as stated for every N is
false. -/
theorem c7_wrap_counterexample :
    chainRegisters (encodeMembership ⟨0, cxA⟩) (List.replicate (2 ^ 64) cxCall) =
      some (encodeMembership ⟨0, cxA⟩,
        (List.range (2 ^ 64)).map (fun t => t % 2 ^ 64)) ∧
    tfsMembership (encodeMembership ⟨0, cxA⟩) = some ⟨0, cxA⟩ ∧
    (0 : Nat) ≠ 2 ^ 64 := by
  refine ⟨?_, ?_, by norm_num⟩
  · have h := cxChain (2 ^ 64) 0 (by norm_num)
    simp only [Nat.zero_add, Nat.mod_self] at h
    exact h
  · exact tfsMembership_encode 0 cxA (by norm_num) (by simp [cxA])

def cxIv1 : Invocation := ⟨[], cxRegMeta, [cxAuthA], [0]⟩

def cxIv2 : Invocation :=
  ⟨[], cxRegMeta, [cxMemberAcc, cxAuthA],
    encodeInstr (.RegisterMember [] false 0)⟩

def cxIv3 : Invocation := ⟨[], cxRegMeta, [cxAuthB], [0]⟩

/-- C3 counterexample: on the sequence Initialize(A), RegisterMember,
Initialize(B) applied to one registry buffer, every invocation succeeds,
the member count goes 0, 1, 0 — it decreases — and the authority bytes
change from A to B: both parts of the claim as stated are false when the
sequence contains a second Initialize. -/
theorem c3_reinit_counterexample :
    countOf (runSeq (List.replicate 40 0) [cxIv1, cxIv2]) = 1 ∧
    countOf (runSeq (List.replicate 40 0) [cxIv1, cxIv2, cxIv3]) = 0 ∧
    authOf (runSeq (List.replicate 40 0) [cxIv1, cxIv2]) = List.replicate 32 1 ∧
    authOf (runSeq (List.replicate 40 0) [cxIv1, cxIv2, cxIv3]) =
      List.replicate 32 2 ∧
    (process_instruction []
      ({ cxRegMeta with data := runSeq (List.replicate 40 0) [cxIv1, cxIv2] } ::
        [cxAuthB]) [0]).1 = none ∧
    (List.replicate 32 2 : List Byte) ≠ List.replicate 32 1 := by decide

def c2reg : List Byte := List.replicate 8 255 ++ List.replicate 32 1

def c2accs : List AccountInfo :=
  [⟨List.replicate 32 0, false, [], c2reg⟩,
   ⟨List.replicate 32 3, false, [], List.replicate 53 0⟩,
   ⟨List.replicate 32 1, true, [], []⟩]

/-- C2 counterexample: from a registry state that decodes with
member count n = 2^64 - 1, a RegisterMember whose preconditions all hold
succeeds, but the registry written back decodes with member count 0, not
n + 1: the stored counter wraps. -/
theorem c2_wrap_counterexample :
    tfsMembership c2reg = some ⟨2 ^ 64 - 1, List.replicate 32 1⟩ ∧
    (process_register_member [] c2accs [] false 0).1 = none ∧
    ((process_register_member [] c2accs [] false 0).2.map AccountInfo.data).head? =
      some (encodeMembership ⟨0, List.replicate 32 1⟩) ∧
    countOf (encodeMembership ⟨0, List.replicate 32 1⟩) = 0 ∧
    (2 ^ 64 - 1) + 1 ≠ (0 : Nat) := by decide


def wReg : List Byte := encodeMembership ⟨0, List.replicate 32 1⟩

def wA0 : AccountInfo := ⟨List.replicate 32 0, false, [], wReg⟩

def wMember53 : AccountInfo := ⟨List.replicate 32 3, false, [], List.replicate 53 0⟩

def wMember56 : AccountInfo := ⟨List.replicate 32 3, false, [], List.replicate 56 0⟩

def wMemberSmall : AccountInfo := ⟨List.replicate 32 3, false, [], List.replicate 10 0⟩

def wAuthGood : AccountInfo := ⟨List.replicate 32 1, true, [], []⟩

def wAuthBad : AccountInfo := ⟨List.replicate 32 2, true, [], []⟩

def wOldMember : Member := ⟨0, [65, 100, 97], false, 100, List.replicate 32 3⟩

def wMemberAda : AccountInfo := ⟨List.replicate 32 3, false, [], encodeMember wOldMember⟩

theorem c1_auth_gate_witness :
    process_register_member [] [wA0, wMember53, wAuthBad] [] false 1 =
      (some (ProgramError.Custom 3), [wA0, wMember53, wAuthBad]) ∧
    process_update_voting_power [] [wA0, wMember53, wAuthBad] 2 =
      (some (ProgramError.Custom 3), [wA0, wMember53, wAuthBad]) :=
  c1_auth_gate [] wA0 wMember53 wAuthBad [] [] false 1 2
    ⟨0, List.replicate 32 1⟩ (by decide) (by decide)

theorem c2_register_effect_witness :
    process_register_member [] [wA0, wMember56, wAuthGood] [65, 100, 97] false 100 =
      (none,
        [⟨List.replicate 32 0, false, [], encodeMembership ⟨1, List.replicate 32 1⟩⟩,
         ⟨List.replicate 32 3, false, [],
           encodeMember ⟨0, [65, 100, 97], false, 100, List.replicate 32 3⟩⟩,
         wAuthGood]) ∧
    tfsMember (encodeMember ⟨0, [65, 100, 97], false, 100, List.replicate 32 3⟩) =
      some ⟨0, [65, 100, 97], false, 100, List.replicate 32 3⟩ ∧
    tfsMembership (encodeMembership ⟨1, List.replicate 32 1⟩) =
      some ⟨1, List.replicate 32 1⟩ :=
  c2_register_effect [] wA0 wMember56 wAuthGood [] [65, 100, 97] false 100 0
    ⟨0, List.replicate 32 1⟩ (by decide) (by decide) (by decide) (by decide)
    (by decide) (by decide) (by decide) (by decide) (by decide) (by decide)

theorem c3_count_monotone_witness :
    tfsInstr cxIv2.instr ≠ some MembershipInstruction.Initialize ∧
    (countOf (runSeq (encodeMembership ⟨0, cxA⟩) ([cxIv2].take 0)) ≤
      countOf (runSeq (encodeMembership ⟨0, cxA⟩) ([cxIv2].take 1)) ∧
     authOf (runSeq (encodeMembership ⟨0, cxA⟩) ([cxIv2].take 1)) = cxA) :=
  ⟨by decide,
   c3_count_monotone cxA [cxIv2] (by decide) (by decide) (by decide) 0 1
     (by decide) (by decide)⟩

theorem c4_atomic_pairing_witness :
    (process_register_member [] [wA0, wMemberSmall, wAuthGood] [] false 1).1 =
      some ProgramError.BorshIoError ∧
    (process_register_member [] [wA0, wMemberSmall, wAuthGood] [] false 1).2.head? =
      some wA0 :=
  c4_atomic_pairing [] wA0 wMemberSmall wAuthGood [] [] false 1
    ⟨0, List.replicate 32 1⟩ (by decide) (by decide) (by decide) (by decide)

theorem c5_update_frame_witness :
    process_update_voting_power [] [wA0, wMemberAda, wAuthGood] 250 =
      (none,
        [wA0,
         ⟨List.replicate 32 3, false, [],
           encodeMember ⟨0, [65, 100, 97], false, 250, List.replicate 32 3⟩⟩,
         wAuthGood]) ∧
    tfsMember (encodeMember ⟨0, [65, 100, 97], false, 250, List.replicate 32 3⟩) =
      some ⟨0, [65, 100, 97], false, 250, List.replicate 32 3⟩ :=
  c5_update_frame [] wA0 wMemberAda wAuthGood [] 250 ⟨0, List.replicate 32 1⟩
    (by decide) (by decide) (by decide) wOldMember (by decide) (by decide)

def wA0Dirty : AccountInfo := ⟨List.replicate 32 0, false, [], List.replicate 40 7⟩

theorem c6_initialize_reset_witness :
    processInitialize [] [wA0Dirty, wAuthGood] =
      (none,
        [⟨List.replicate 32 0, false, [], encodeMembership ⟨0, List.replicate 32 1⟩⟩,
         wAuthGood]) ∧
    tfsMembership (encodeMembership ⟨0, List.replicate 32 1⟩) =
      some ⟨0, List.replicate 32 1⟩ ∧
    processInitialize [] [wA0Dirty, ⟨List.replicate 32 1, false, [], []⟩] =
      (some (ProgramError.Custom 3),
        [wA0Dirty, ⟨List.replicate 32 1, false, [], []⟩]) := by
  refine ⟨?_, ?_, ?_⟩
  · exact ((c6_initialize_reset [] wA0Dirty wAuthGood []).2 (by decide) (by decide)
      (by decide)).1
  · exact ((c6_initialize_reset [] wA0Dirty wAuthGood []).2 (by decide) (by decide)
      (by decide)).2
  · exact (c6_initialize_reset [] wA0Dirty ⟨List.replicate 32 1, false, [], []⟩ []).1
      (by decide)

theorem c7_monotone_ids_witness :
    processInitialize [] [⟨List.replicate 32 0, false, [], List.replicate 40 0⟩, cxAuthA] =
      (none,
        [⟨List.replicate 32 0, false, [], encodeMembership ⟨0, cxA⟩⟩, cxAuthA]) ∧
    (tfsMembership (encodeMembership ⟨1, cxA⟩) = some ⟨1, cxA⟩ ∧
      ([0] : List Nat) = List.range 1 ∧ ([0] : List Nat).Nodup) :=
  ⟨(c7_monotone_ids [] ⟨List.replicate 32 0, false, [], List.replicate 40 0⟩ cxAuthA []
      (by decide) (by decide) (by decide) 1 (by decide)).1,
   (c7_monotone_ids [] ⟨List.replicate 32 0, false, [], List.replicate 40 0⟩ cxAuthA []
      (by decide) (by decide) (by decide) 1 (by decide)).2 [cxCall]
      (encodeMembership ⟨1, cxA⟩) [0] (by decide) (by decide)⟩

theorem c8_decode_all_or_nothing_witness :
    tfsInstr [(3 : Byte)] = none ∧
    process_instruction [] [wA0] [(3 : Byte)] = (some .BorshIoError, [wA0]) ∧
    tfsInstr ((1 : Byte) :: ([5, 0, 0, 0] ++ [])) = none ∧
    tfsInstr ((2 : Byte) :: [7]) = none ∧
    tfsInstr ([(0 : Byte)] ++ [0]) = none :=
  ⟨c8_decode_all_or_nothing.2.2.1 3 [] (by decide),
   c8_decode_all_or_nothing.1 [] [wA0] [(3 : Byte)] (by decide),
   c8_decode_all_or_nothing.2.2.2.1 [5, 0, 0, 0] [] (by decide) (by decide),
   c8_decode_all_or_nothing.2.2.2.2.1 [7] (by decide),
   c8_decode_all_or_nothing.2.2.2.2.2 [0] [0] .Initialize (by decide) (by decide)⟩

theorem c9_unreachable_errors_witness :
    ((process_instruction [] [wA0] [9]).1 ≠ some (ProgramError.Custom 1) ∧
      (process_instruction [] [wA0] [9]).1 ≠ some (ProgramError.Custom 2)) ∧
    (process_register_member [] [wA0, wMemberAda, wAuthGood] [65, 100, 97] false 7).1 =
      none :=
  ⟨c9_unreachable_errors.1 [] [wA0] [9],
   c9_unreachable_errors.2 [] wA0 wMemberAda wAuthGood [] [65, 100, 97] false 7
     ⟨0, List.replicate 32 1⟩ wOldMember (by decide) (by decide) (by decide)
     (by decide) (by decide)⟩

end MicroDao
